import Mathlib

/-!
Shallow embedding of the point-sampling RGB histogram pipeline of the
`ic4-examples` repository (`CameraApp.update_histogram` /
`MainWindow.update_histogram`, `on_click`, `reset_points`), together with
theorems settling the specification's claims about it.

Coordinates and channel values are modelled as `Nat` (click coordinates
delivered by the UI are non-negative integers, channel values are 8-bit).
NumPy array slicing `a[lo:hi]` with non-negative bounds is modelled by
`slice`, and `np.histogram(values, bins=256, range=(0, 255))` by
`histogram` below.
-/

set_option maxRecDepth 100000

namespace ColorContrast

/-- An RGB pixel: the ordered triple (red, green, blue) of channel values. -/
abbrev Pixel := Nat × Nat × Nat

/-- Red channel of a pixel (`region[:, :, 0]`). -/
def red (p : Pixel) : Nat := p.1

/-- Green channel of a pixel (`region[:, :, 1]`). -/
def green (p : Pixel) : Nat := p.2.1

/-- Blue channel of a pixel (`region[:, :, 2]`). -/
def blue (p : Pixel) : Nat := p.2.2

/-- A frame: an `H × W` grid of RGB pixels, as delivered by
`frame.to_numpy()` (shape `(H, W, 3)`).  `pix r c` is the pixel at row `r`,
column `c`. -/
structure Frame where
  H : Nat
  W : Nat
  pix : Nat → Nat → Pixel

/-- A frame is 8-bit valid when every in-bounds channel value fits in a
byte.  This is guaranteed structurally by the `uint8` dtype of the
delivered buffer. -/
def Frame.Valid (img : Frame) : Prop :=
  ∀ r, r < img.H → ∀ c, c < img.W →
    red (img.pix r c) ≤ 255 ∧ green (img.pix r c) ≤ 255 ∧ blue (img.pix r c) ≤ 255

/-- `region_size = 5` from `update_histogram`. -/
def region_size : Nat := 5

/-- NumPy basic slicing `[lo:hi]` along an axis of length `n`, for
non-negative `lo`, `hi`: the indices `lo, lo+1, …` up to (exclusive)
`min hi n`.  Out-of-range parts are silently dropped; the result may be
empty. -/
def slice (lo hi n : Nat) : List Nat := List.range' lo (min hi n - lo)

/-- A sample point: `(x, y)` pixel coordinates of a click. -/
abbrev Pt := Nat × Nat

/-- The neighborhood of a sample point:
`img[max(0, y - region_size):y + region_size, max(0, x - region_size):x + region_size]`,
as a list of rows.  (For `y : Nat`, truncated subtraction `y - region_size`
equals `max 0 (y - region_size)` over the integers.) -/
def region (img : Frame) (x y : Nat) : List (List Pixel) :=
  (slice (y - region_size) (y + region_size) img.H).map fun r =>
    (slice (x - region_size) (x + region_size) img.W).map fun c => img.pix r c

/-- `region[:, :, k].flatten()`: the chosen channel of every pixel of the
region, in row-major order. -/
def flatChan (reg : List (List Pixel)) (ch : Pixel → Nat) : List Nat :=
  (reg.map fun row => row.map ch).flatten

/-- The accumulation loop of `update_histogram`: starting from
`chans = {'r': [], 'g': [], 'b': []}`, for each point extend the three
channel lists with the flattened channel values of that point's region. -/
def chansAcc (img : Frame) (points : List Pt) : List Nat × List Nat × List Nat :=
  points.foldl
    (fun chans pt =>
      let reg := region img pt.1 pt.2
      (chans.1 ++ flatChan reg red,
       chans.2.1 ++ flatChan reg green,
       chans.2.2 ++ flatChan reg blue))
    ([], [], [])

/-- The bin index assigned by `np.histogram(·, bins=256, range=(0, 255))`
to an in-range value `v`: the 256 uniform bin edges are `i * 255 / 256`
(`i = 0, …, 256`), a value lands in the bin whose half-open interval
contains it, and the last bin is closed on the right so the top edge value
`255` lands in bin `255`.  For `v < 255` the index is
`⌊v * 256 / 255⌋`, computed here with exact natural division. -/
def binIndex256 (v : Nat) : Nat := if v = 255 then 255 else v * 256 / 255

/-- `np.histogram(values, bins=256, range=(0, 255))` (first component):
256 counts, where bin `i` counts the values of the list that are in range
(`v ≤ 255`; values are naturals, so `0 ≤ v` holds) and whose bin index is
`i`. -/
def histogram (values : List Nat) : List Nat :=
  (List.range 256).map fun i =>
    (values.filter fun v => decide (v ≤ 255) && (binIndex256 v == i)).length

/-- `update_histogram`'s computation as a function of its inputs: pool the
three channels across all points, then bin each pooled channel; the result
triple is in (red, green, blue) order, as pushed to
`curve_r`, `curve_g`, `curve_b`. -/
def update_histogram (img : Frame) (points : List Pt) :
    List Nat × List Nat × List Nat :=
  let chans := chansAcc img points
  (histogram chans.1, histogram chans.2.1, histogram chans.2.2)

/-! ### Helper lemmas -/

/-- A NumPy slice `[lo:hi]` of an axis of length `n` selects exactly the
valid indices in `[lo, hi)`. -/
lemma slice_eq_filter_range (lo hi n : Nat) :
    slice lo hi n = (List.range n).filter fun i => decide (lo ≤ i) && decide (i < hi) := by
  induction n with
  | zero => simp [slice]
  | succ n ih =>
    rw [List.range_succ, List.filter_append, ← ih]
    by_cases hn : n < hi
    · by_cases hl : lo ≤ n
      · have h1 : min hi (n + 1) - lo = (min hi n - lo) + 1 := by omega
        have h2 : lo + 1 * (min hi n - lo) = n := by omega
        simp only [slice, h1, List.range'_concat, h2]
        simp [hl, hn]
      · have h1 : min hi (n + 1) - lo = 0 := by omega
        have h2 : min hi n - lo = 0 := by omega
        simp only [slice, h1, h2, List.range']
        simp [hl]
    · have h1 : min hi (n + 1) - lo = min hi n - lo := by omega
      simp only [slice, h1]
      simp [hn]

/-- Every index selected by a slice of an axis of length `n` is `< n`. -/
lemma slice_mem_lt {lo hi n i : Nat} (h : i ∈ slice lo hi n) : i < n := by
  rw [slice, List.mem_range'] at h
  omega

/-- For an 8-bit value, the NumPy bin index over 256 bins spanning
`[0, 255]` is the value itself: the bins are narrower than 1, but integer
samples never straddle an edge. -/
lemma binIndex256_eq_self {v : Nat} (h : v ≤ 255) : binIndex256 v = v := by
  unfold binIndex256
  split
  · omega
  · exact Nat.div_eq_of_lt_le (by omega) (by omega)

/-- Summing an indicator of `j` over `List.range n`. -/
lemma sum_map_indicator (a j n : Nat) :
    ((List.range n).map fun i => if j = i then a else 0).sum =
      if j < n then a else 0 := by
  induction n with
  | zero => simp
  | succ n ih =>
    rw [List.range_succ, List.map_append, List.sum_append, ih]
    by_cases h : j = n
    · subst h
      simp [Nat.lt_irrefl, Nat.lt_succ_self]
    · by_cases h2 : j < n
      · simp [h, h2, Nat.lt_succ_of_lt h2]
      · have : ¬ j < n + 1 := by omega
        simp [h, h2, this]

/-- Pointwise-sum split for a mapped list sum. -/
lemma sum_map_add (l : List Nat) (f g : Nat → Nat) :
    (l.map fun i => f i + g i).sum = (l.map f).sum + (l.map g).sum := by
  induction l with
  | nil => simp
  | cons x xs ih => simp [ih]; omega

/-- The histogram of a list of 8-bit values has total mass the length of
the list: every value falls in exactly one bin. -/
lemma histogram_sum {values : List Nat} (h8 : ∀ v ∈ values, v ≤ 255) :
    (histogram values).sum = values.length := by
  induction values with
  | nil => decide
  | cons v rest ih =>
    have hv : v ≤ 255 := h8 v (List.mem_cons_self v rest)
    have hrest : ∀ w ∈ rest, w ≤ 255 := fun w hw => h8 w (List.mem_cons_of_mem v hw)
    have hlen : ∀ i : Nat,
        ((v :: rest).filter fun w => decide (w ≤ 255) && (binIndex256 w == i)).length =
          (if binIndex256 v = i then 1 else 0) +
            (rest.filter fun w => decide (w ≤ 255) && (binIndex256 w == i)).length := by
      intro i
      rw [List.filter_cons]
      by_cases hb : binIndex256 v = i
      · simp [hv, hb]; omega
      · simp [hv, hb]
    unfold histogram
    have : ((List.range 256).map fun i =>
        ((v :: rest).filter fun w => decide (w ≤ 255) && (binIndex256 w == i)).length).sum =
        ((List.range 256).map fun i => (if binIndex256 v = i then 1 else 0) +
          (rest.filter fun w => decide (w ≤ 255) && (binIndex256 w == i)).length).sum := by
      congr 1
      exact List.map_congr_left fun i _ => hlen i
    rw [this, sum_map_add, sum_map_indicator]
    have hbin : binIndex256 v < 256 := by
      rw [binIndex256_eq_self hv]; omega
    rw [if_pos hbin]
    unfold histogram at ih
    rw [ih hrest]
    simp [Nat.add_comm]

/-! ### C1: neighborhood extraction -/

/-- C1: for every frame and every sample point `(x, y)`, the extracted
neighborhood consists of exactly the pixels whose row lies in
`[max(0, y-5), y+5)` and whose column lies in `[max(0, x-5), x+5)`,
intersected with the frame extent (`r < H`, `c < W`): the lower bound is
clamped at the origin, the upper bound is not clamped, and parts past the
bottom/right edge are silently dropped, never an error. -/
theorem region_eq_clamped_window (img : Frame) (x y : Nat) :
    region img x y =
      ((List.range img.H).filter fun r =>
          decide (max 0 (y - region_size) ≤ r) && decide (r < y + region_size)).map
        fun r =>
          ((List.range img.W).filter fun c =>
              decide (max 0 (x - region_size) ≤ c) && decide (c < x + region_size)).map
            fun c => img.pix r c := by
  unfold region
  rw [slice_eq_filter_range, slice_eq_filter_range]
  simp [Nat.zero_max]

/-! ### C2: unit-width binning despite 255/256-wide bin edges -/

/-- C2: for a collection of 8-bit channel values, the `np.histogram`
result with 256 bins over `[0, 255]` has exactly 256 bins, and bin `i`
counts exactly the values equal to `i`, even though the bin edges are
spaced `255/256` apart. -/
theorem histogram_bins_exact (values : List Nat) (h8 : ∀ v ∈ values, v ≤ 255) :
    (histogram values).length = 256 ∧
      ∀ i, i < 256 →
        (histogram values).getD i 0 = (values.filter fun v => v == i).length := by
  constructor
  · simp [histogram]
  · intro i hi
    unfold histogram
    rw [List.getD_eq_getElem?_getD, List.getElem?_map, List.getElem?_range hi]
    simp only [Option.map_some', Option.getD_some]
    congr 1
    apply List.filter_congr
    intro v hv
    have h255 : v ≤ 255 := h8 v hv
    rw [binIndex256_eq_self h255]
    simp [h255]

/-- Spot check of `histogram_bins_exact` at a concrete collection. -/
theorem histogram_bins_exact_spot :
    (histogram [0, 7, 255, 7]).getD 7 0 = 2 := by
  have h := histogram_bins_exact [0, 7, 255, 7] (by decide)
  rw [h.2 7 (by decide)]
  decide

/-! ### C3: pooling across the three points -/

/-- The accumulation loop, started from an arbitrary accumulator,
appends the concatenated per-point channel flattenings. -/
lemma chansAcc_foldl (img : Frame) (points : List Pt) (a b c : List Nat) :
    points.foldl
      (fun chans pt =>
        let reg := region img pt.1 pt.2
        (chans.1 ++ flatChan reg red,
         chans.2.1 ++ flatChan reg green,
         chans.2.2 ++ flatChan reg blue))
      (a, b, c) =
      (a ++ (points.map fun pt => flatChan (region img pt.1 pt.2) red).flatten,
       b ++ (points.map fun pt => flatChan (region img pt.1 pt.2) green).flatten,
       c ++ (points.map fun pt => flatChan (region img pt.1 pt.2) blue).flatten) := by
  induction points generalizing a b c with
  | nil => simp
  | cons pt rest ih =>
    simp only [List.foldl_cons, List.map_cons, List.flatten_cons]
    rw [ih]
    simp [List.append_assoc]

/-- The three pooled channel collections are the concatenations, over the
points in order, of each point's flattened neighborhood channel values. -/
lemma chansAcc_eq (img : Frame) (points : List Pt) :
    chansAcc img points =
      ((points.map fun pt => flatChan (region img pt.1 pt.2) red).flatten,
       (points.map fun pt => flatChan (region img pt.1 pt.2) green).flatten,
       (points.map fun pt => flatChan (region img pt.1 pt.2) blue).flatten) := by
  unfold chansAcc
  rw [chansAcc_foldl]
  simp

/-- C3: the per-channel collection that is binned is the concatenation of
the points' neighborhood values for that channel — one pooled multiset
across all points, not separate per-point histograms — so each value
occurs with multiplicity equal to the sum of its multiplicities in the
individual neighborhoods (a pixel inside several neighborhoods counts once
per containing point). -/
theorem pooled_across_points (img : Frame) (points : List Pt) :
    (chansAcc img points).1 =
        (points.map fun pt => flatChan (region img pt.1 pt.2) red).flatten ∧
      (chansAcc img points).2.1 =
        (points.map fun pt => flatChan (region img pt.1 pt.2) green).flatten ∧
      (chansAcc img points).2.2 =
        (points.map fun pt => flatChan (region img pt.1 pt.2) blue).flatten ∧
      ∀ v : Nat,
        (chansAcc img points).1.count v =
            (points.map fun pt => (flatChan (region img pt.1 pt.2) red).count v).sum ∧
          (chansAcc img points).2.1.count v =
            (points.map fun pt => (flatChan (region img pt.1 pt.2) green).count v).sum ∧
          (chansAcc img points).2.2.count v =
            (points.map fun pt => (flatChan (region img pt.1 pt.2) blue).count v).sum := by
  rw [chansAcc_eq]
  refine ⟨rfl, rfl, rfl, fun v => ⟨?_, ?_, ?_⟩⟩ <;>
    rw [List.count_flatten, List.map_map] <;> rfl

/-! ### C4: count conservation -/

/-- Every flattened neighborhood channel value is a channel of an
in-bounds pixel of the frame. -/
lemma mem_flatChan_imp {img : Frame} {x y v : Nat} {ch : Pixel → Nat}
    (h : v ∈ flatChan (region img x y) ch) :
    ∃ r c, r < img.H ∧ c < img.W ∧ v = ch (img.pix r c) := by
  unfold flatChan at h
  rw [List.mem_flatten] at h
  obtain ⟨l, hl, hvl⟩ := h
  rw [List.mem_map] at hl
  obtain ⟨row, hrow, rfl⟩ := hl
  unfold region at hrow
  rw [List.mem_map] at hrow
  obtain ⟨r, hr, rfl⟩ := hrow
  rw [List.map_map, List.mem_map] at hvl
  obtain ⟨c, hc, rfl⟩ := hvl
  exact ⟨r, c, slice_mem_lt hr, slice_mem_lt hc, rfl⟩

/-- For a valid frame, every pooled red value is 8-bit (and similarly for
green and blue). -/
lemma chansAcc_le_255 {img : Frame} (hv : img.Valid) (points : List Pt) :
    (∀ v ∈ (chansAcc img points).1, v ≤ 255) ∧
      (∀ v ∈ (chansAcc img points).2.1, v ≤ 255) ∧
      ∀ v ∈ (chansAcc img points).2.2, v ≤ 255 := by
  rw [chansAcc_eq]
  refine ⟨fun v h => ?_, fun v h => ?_, fun v h => ?_⟩ <;>
  · rw [List.mem_flatten] at h
    obtain ⟨l, hl, hvl⟩ := h
    rw [List.mem_map] at hl
    obtain ⟨pt, _, rfl⟩ := hl
    obtain ⟨r, c, hr, hc, rfl⟩ := mem_flatChan_imp hvl
    have := hv r hr c hc
    omega

/-- C4: for a valid frame, the sum of each channel's 256 bin counts equals
the number of pixels pooled from the neighborhoods, and every bin count is
a non-negative integer. -/
theorem histogram_count_conservation (img : Frame) (points : List Pt) (hv : img.Valid) :
    (update_histogram img points).1.sum = (chansAcc img points).1.length ∧
      (update_histogram img points).2.1.sum = (chansAcc img points).2.1.length ∧
      (update_histogram img points).2.2.sum = (chansAcc img points).2.2.length ∧
      (∀ n ∈ (update_histogram img points).1, 0 ≤ n) ∧
      (∀ n ∈ (update_histogram img points).2.1, 0 ≤ n) ∧
      ∀ n ∈ (update_histogram img points).2.2, 0 ≤ n := by
  obtain ⟨h1, h2, h3⟩ := chansAcc_le_255 hv points
  exact ⟨histogram_sum h1, histogram_sum h2, histogram_sum h3,
    fun n _ => Nat.zero_le n, fun n _ => Nat.zero_le n, fun n _ => Nat.zero_le n⟩

/-- A small concrete valid frame used by spot checks. -/
def testFrame : Frame where
  H := 8
  W := 8
  pix := fun r c => (r % 256, c % 256, (r + c) % 256)

instance (img : Frame) : Decidable img.Valid := by
  unfold Frame.Valid
  infer_instance

/-- Spot check of `histogram_count_conservation` at a concrete frame and
point list. -/
theorem histogram_count_conservation_spot :
    testFrame.Valid ∧
      (update_histogram testFrame [(1, 1), (6, 6), (0, 7)]).1.sum =
        (chansAcc testFrame [(1, 1), (6, 6), (0, 7)]).1.length :=
  ⟨by decide, (histogram_count_conservation testFrame [(1, 1), (6, 6), (0, 7)] (by decide)).1⟩

/-! ### C5: concrete red-square scenario -/

/-- A synthetic 20×20 frame, all black except a 10×10 pure-red square
centered at `(10, 10)` (rows 5–14, columns 5–14). -/
def redSquareFrame : Frame where
  H := 20
  W := 20
  pix := fun r c =>
    if 5 ≤ r ∧ r < 15 ∧ 5 ≤ c ∧ c < 15 then (255, 0, 0) else (0, 0, 0)

/-- C5: sampling the single point `(10, 10)` with half-width 5 on the
red-square frame pools exactly the 100 red pixels; the red histogram has
its entire mass (100) in bin 255 and zero elsewhere, and the green and
blue histograms have their entire mass in bin 0. -/
theorem red_square_scenario :
    update_histogram redSquareFrame [(10, 10)] =
        ((List.range 256).map fun i => if i = 255 then 100 else 0,
         (List.range 256).map fun i => if i = 0 then 100 else 0,
         (List.range 256).map fun i => if i = 0 then 100 else 0) ∧
      (chansAcc redSquareFrame [(10, 10)]).1.length = 100 := by
  decide

/-! ### C6: R, G, B output order; invariance under click order -/

/-- Binning only counts values per bin, so it is invariant under
permutation of the value list. -/
lemma histogram_perm {vs vs' : List Nat} (h : vs.Perm vs') :
    histogram vs = histogram vs' := by
  unfold histogram
  refine List.map_congr_left fun i _ => ?_
  rw [← List.countP_eq_length_filter, ← List.countP_eq_length_filter]
  exact h.countP_eq _

/-- Permuting the point list permutes each pooled channel collection. -/
lemma chansAcc_perm (img : Frame) {ps ps' : List Pt} (h : ps.Perm ps') :
    ((chansAcc img ps).1.Perm (chansAcc img ps').1) ∧
      ((chansAcc img ps).2.1.Perm (chansAcc img ps').2.1) ∧
      (chansAcc img ps).2.2.Perm (chansAcc img ps').2.2 := by
  rw [chansAcc_eq, chansAcc_eq]
  exact ⟨(h.map _).flatten, (h.map _).flatten, (h.map _).flatten⟩

/-- C6: the three output histograms are produced in fixed channel order
(red, green, blue), and each histogram is unchanged under any permutation
of the order in which the three points were added. -/
theorem rgb_order_and_click_order_invariance (img : Frame) (ps ps' : List Pt)
    (h : ps.Perm ps') :
    update_histogram img ps = update_histogram img ps' ∧
      update_histogram img ps =
        (histogram (chansAcc img ps).1,
         histogram (chansAcc img ps).2.1,
         histogram (chansAcc img ps).2.2) := by
  obtain ⟨h1, h2, h3⟩ := chansAcc_perm img h
  exact ⟨Prod.ext (histogram_perm h1) (Prod.ext (histogram_perm h2) (histogram_perm h3)),
    rfl⟩

/-- Spot check of `rgb_order_and_click_order_invariance` on a concrete
frame and a concrete permutation of three clicks. -/
theorem rgb_order_and_click_order_invariance_spot :
    ([((1 : Nat), (2 : Nat)), (3, 4), (6, 0)] : List Pt).Perm [(6, 0), (1, 2), (3, 4)] ∧
      update_histogram testFrame [(1, 2), (3, 4), (6, 0)] =
        update_histogram testFrame [(6, 0), (1, 2), (3, 4)] :=
  ⟨by decide,
    (rgb_order_and_click_order_invariance testFrame
      [(1, 2), (3, 4), (6, 0)] [(6, 0), (1, 2), (3, 4)] (by decide)).1⟩

/-! ### C7: the click / reset state machine -/

/-- `reset_points`: `self.points.clear()`. -/
def reset_points (points : List Pt) : List Pt := []

/-- `on_click`: append the clicked point while fewer than 3 points are
present, otherwise reset (discarding the triggering click's coordinate). -/
def on_click (points : List Pt) (pt : Pt) : List Pt :=
  if points.length < 3 then points ++ [pt] else reset_points points

/-- A user interaction: a click at a point, or pressing "Reset Points". -/
inductive UserEvent where
  | click : Pt → UserEvent
  | reset : UserEvent

/-- Dispatch one user interaction to its handler. -/
def applyEvent (points : List Pt) : UserEvent → List Pt
  | UserEvent.click pt => on_click points pt
  | UserEvent.reset => reset_points points

/-- The point collection after a sequence of interactions, starting from
the empty collection `self.points = []`. -/
def runEvents (events : List UserEvent) : List Pt :=
  events.foldl applyEvent []

/-- One interaction preserves the at-most-3 bound. -/
lemma applyEvent_length_le {s : List Pt} (e : UserEvent) (h : s.length ≤ 3) :
    (applyEvent s e).length ≤ 3 := by
  cases e with
  | click pt =>
    simp only [applyEvent, on_click, reset_points]
    split
    · simp; omega
    · simp
  | reset => simp [applyEvent, reset_points]

/-- The at-most-3 bound is preserved along any interaction sequence. -/
lemma foldl_applyEvent_length_le (events : List UserEvent) :
    ∀ s : List Pt, s.length ≤ 3 → (events.foldl applyEvent s).length ≤ 3 := by
  induction events with
  | nil => intro s h; simpa using h
  | cons e rest ih =>
    intro s h
    exact ih _ (applyEvent_length_le e h)

/-- C7: starting empty, any sequence of clicks and resets leaves at most 3
points; a click with fewer than 3 points appends exactly the clicked
point; a click with 3 points present clears the collection (the clicked
coordinate is discarded, never appended); an explicit reset clears the
collection. -/
theorem click_state_machine :
    (∀ events : List UserEvent, (runEvents events).length ≤ 3) ∧
      (∀ (s : List Pt) (p : Pt), s.length < 3 → on_click s p = s ++ [p]) ∧
      (∀ (s : List Pt) (p : Pt), s.length = 3 → on_click s p = []) ∧
      ∀ s : List Pt, reset_points s = [] := by
  refine ⟨fun events => foldl_applyEvent_length_le events [] (by simp), ?_, ?_, fun s => rfl⟩
  · intro s p h
    simp [on_click, h]
  · intro s p h
    simp [on_click, reset_points, h]

/-- Spot check of `click_state_machine`: a 4th click resets, a 2nd click
appends. -/
theorem click_state_machine_spot :
    (runEvents [UserEvent.click (1, 1), UserEvent.click (2, 2), UserEvent.click (3, 3),
        UserEvent.click (4, 4)]).length ≤ 3 ∧
      on_click [(1, 1)] (2, 2) = [(1, 1), (2, 2)] ∧
      on_click [(1, 1), (2, 2), (3, 3)] (4, 4) = [] :=
  ⟨click_state_machine.1 _,
    by rw [click_state_machine.2.1 [(1, 1)] (2, 2) (by decide)]; rfl,
    click_state_machine.2.2.1 [(1, 1), (2, 2), (3, 3)] (4, 4) (by decide)⟩

/-! ### C8, C9: purity of the histogram computation -/

/-- The mutable attributes of the application window that
`update_histogram` can see: the click collection `self.points` and the
three curve series `self.curve_r/g/b` it writes via `setData`. -/
structure AppState where
  points : List Pt
  curve_r : List Nat
  curve_g : List Nat
  curve_b : List Nat

/-- One invocation of `update_histogram(self, img)`, with the frame buffer
threaded explicitly: the method reads `img` and `self.points`, recomputes
the pooled channels and the three histograms, and writes only the three
curve series.  No statement of the method assigns into `img` or
`self.points`, so both pass through unchanged. -/
def update_histogram_call (img : Frame) (s : AppState) : Frame × AppState :=
  let chans := chansAcc img s.points
  (img,
   { s with
      curve_r := histogram chans.1
      curve_g := histogram chans.2.1
      curve_b := histogram chans.2.2 })

/-- C8: the histogram computation is deterministic and stateless — two
invocations on the same frame content and the same point collection
produce identical (R, G, B) curve data, whatever the other (hidden) state
holds, and invoking the computation twice in a row gives the same result
as once. -/
theorem histograms_deterministic_stateless (img : Frame) (s₁ s₂ : AppState)
    (h : s₁.points = s₂.points) :
    (update_histogram_call img s₁).2.curve_r = (update_histogram_call img s₂).2.curve_r ∧
      (update_histogram_call img s₁).2.curve_g = (update_histogram_call img s₂).2.curve_g ∧
      (update_histogram_call img s₁).2.curve_b = (update_histogram_call img s₂).2.curve_b ∧
      update_histogram_call img (update_histogram_call img s₁).2 =
        update_histogram_call img s₁ := by
  cases s₁
  cases s₂
  simp_all [update_histogram_call]

/-- Spot check of `histograms_deterministic_stateless`: two states with
the same points and different stale curve data give equal red curves. -/
theorem histograms_deterministic_stateless_spot :
    (update_histogram_call testFrame ⟨[(1, 1)], [], [], []⟩).2.curve_r =
      (update_histogram_call testFrame ⟨[(1, 1)], [9], [8], [7]⟩).2.curve_r :=
  (histograms_deterministic_stateless testFrame ⟨[(1, 1)], [], [], []⟩
    ⟨[(1, 1)], [9], [8], [7]⟩ rfl).1

/-- C9: the histogram computation mutates neither the input frame (every
pixel is unchanged) nor the sample-point collection. -/
theorem frame_and_points_not_mutated (img : Frame) (s : AppState) :
    (update_histogram_call img s).1 = img ∧
      (∀ r c, (update_histogram_call img s).1.pix r c = img.pix r c) ∧
      (update_histogram_call img s).2.points = s.points :=
  ⟨rfl, fun _ _ => rfl, rfl⟩

/-! ### C10: edge safety — far points contribute nothing, never error -/

/-- A point whose row window starts past the bottom edge has an empty
neighborhood. -/
lemma region_empty_of_far_bottom {img : Frame} {x y : Nat}
    (h : img.H + region_size ≤ y) : region img x y = [] := by
  have hrs : region_size = 5 := rfl
  have h0 : min (y + region_size) img.H - (y - region_size) = 0 := by omega
  unfold region slice
  rw [h0]
  rfl

/-- A neighborhood lying wholly past the bottom or right edge contributes
zero pixels to every channel. -/
lemma flatChan_empty_of_far {img : Frame} {x y : Nat} (ch : Pixel → Nat)
    (h : img.H + region_size ≤ y ∨ img.W + region_size ≤ x) :
    flatChan (region img x y) ch = [] := by
  rcases h with h | h
  · rw [region_empty_of_far_bottom h]
    rfl
  · unfold flatChan
    rw [List.flatten_eq_nil_iff]
    intro l hl
    rw [List.mem_map] at hl
    obtain ⟨row, hrow, rfl⟩ := hl
    unfold region at hrow
    rw [List.mem_map] at hrow
    obtain ⟨r, _, rfl⟩ := hrow
    have hrs : region_size = 5 := rfl
    have h0 : min (x + region_size) img.W - (x - region_size) = 0 := by omega
    unfold slice
    rw [h0]
    rfl

/-- The histogram of an empty collection is 256 zero bins. -/
lemma histogram_nil : histogram [] = List.replicate 256 0 := by
  decide

/-- C10: for a frame with positive dimensions and points on or past the
far edges, the computation never errors: each wholly-out-of-range
neighborhood is empty and contributes zero pixels, and when all points are
out of range the result is three all-zero 256-bin histograms. -/
theorem far_points_safe (img : Frame) (points : List Pt)
    (hH : 0 < img.H) (hW : 0 < img.W)
    (hfar : ∀ p ∈ points, img.H + region_size ≤ p.2 ∨ img.W + region_size ≤ p.1) :
    (∀ p ∈ points,
        flatChan (region img p.1 p.2) red = [] ∧
          flatChan (region img p.1 p.2) green = [] ∧
          flatChan (region img p.1 p.2) blue = []) ∧
      chansAcc img points = ([], [], []) ∧
      update_histogram img points =
        (List.replicate 256 0, List.replicate 256 0, List.replicate 256 0) ∧
      (update_histogram img points).1.length = 256 ∧
      (update_histogram img points).2.1.length = 256 ∧
      (update_histogram img points).2.2.length = 256 := by
  have hempty : ∀ p ∈ points,
      flatChan (region img p.1 p.2) red = [] ∧
        flatChan (region img p.1 p.2) green = [] ∧
        flatChan (region img p.1 p.2) blue = [] := fun p hp =>
    ⟨flatChan_empty_of_far red (hfar p hp), flatChan_empty_of_far green (hfar p hp),
      flatChan_empty_of_far blue (hfar p hp)⟩
  have hacc : chansAcc img points = ([], [], []) := by
    rw [chansAcc_eq]
    refine Prod.ext ?_ (Prod.ext ?_ ?_) <;>
    · simp only [List.flatten_eq_nil_iff]
      intro l hl
      rw [List.mem_map] at hl
      obtain ⟨pt, hpt, rfl⟩ := hl
      first
        | exact (hempty pt hpt).1
        | exact (hempty pt hpt).2.1
        | exact (hempty pt hpt).2.2
  have hupd : update_histogram img points =
      (List.replicate 256 0, List.replicate 256 0, List.replicate 256 0) := by
    unfold update_histogram
    rw [hacc]
    show (histogram [], histogram [], histogram []) = _
    rw [histogram_nil]
  refine ⟨hempty, hacc, hupd, ?_, ?_, ?_⟩ <;> rw [hupd] <;> simp

/-- Spot check of `far_points_safe` on a concrete 8×8 frame with all
three points on or past the far edges. -/
theorem far_points_safe_spot :
    0 < testFrame.H ∧ 0 < testFrame.W ∧
      update_histogram testFrame [(30, 30), (0, 25), (13, 0)] =
        (List.replicate 256 0, List.replicate 256 0, List.replicate 256 0) :=
  ⟨by decide, by decide,
    (far_points_safe testFrame [(30, 30), (0, 25), (13, 0)]
      (by decide) (by decide) (by decide)).2.2.1⟩

end ColorContrast
